import Mathlib

/-!
# Verification of the trip-redirect engine (`main.go`)

This file gives a shallow embedding of the trip resolution engine of the
`trips-redirect` repository and settles the frozen claims about it.

The embedding covers:
* `Trip` and the selection algorithm `selectTrip` (`main.go`, `selectTrip`),
  including a faithful model of Go's `sort.Slice` (unstable pattern-defeating
  quicksort, with plain insertion sort for ranges of at most 12 elements);
* the response normalizer of `fetchUserTrips`, over a JSON value type, with a
  model of `encoding/json`'s tolerant unmarshalling (type errors are recorded
  and decoding continues; `Unmarshal` reports the first error);
* the request handler (`handler`): host normalization, domain lookup, cache
  lookup, fetch, selection, cache population and the redirect target;
* the daily cache resetter (`startCacheResetter`), over a model of wall-clock
  time with a location given by a UTC-offset function.

Machine integers (`int`, `int64`) only ever get compared in the modelled code,
never overflowed, so they are modelled as `Int`. Go strings are modelled as
`String` over their character lists; the modelled code only manipulates ASCII
hostnames and URLs, where Go's byte indexing and Lean's character indexing
agree.
-/

/-- One itinerary entry, transcribed from `type Trip struct` in `main.go`:
`ID int`, `Slug string`, `StartDate int64`, `EndDate *int64` (the nil-able
pointer becomes `Option Int`). -/
structure Trip where
  id : Int
  slug : String
  startDate : Int
  endDate : Option Int
deriving DecidableEq, Repr

instance : Inhabited Trip := ⟨⟨0, "", 0, none⟩⟩

/-! ## A model of Go's `sort.Slice`

`selectTrip` sorts its `future` and `past` buckets with `sort.Slice`, which is
*not* a stable sort: it runs pattern-defeating quicksort (`pdqsort`), which
falls back to plain insertion sort on ranges of at most 12 elements
(`maxInsertion = 12` in Go's `sort` package).  The functions below transcribe
Go's `pdqsort_func` and its helpers.  The slice is modelled as a `List` with
total indexed access (`aget`) and Go's `Swap` (`aswap`); loops that are not
structurally recursive carry a fuel argument that is large enough to never run
out on the inputs Go terminates on. -/

/-- Indexed read of a slice (`data[i]`); out-of-range reads never happen on
the paths Go executes. -/
def aget [Inhabited α] (l : List α) (i : Nat) : α := l.getD i default

/-- Go's `data.Swap(i, j)`. -/
def aswap [Inhabited α] (l : List α) (i j : Nat) : List α :=
  let xi := aget l i
  let xj := aget l j
  (l.set i xj).set j xi

/-- Insert `x` into the already sorted list `acc`, after all elements that do
not compare strictly greater than `x`.  This is the effect of one pass of the
inner loop of Go's `insertionSort_func` (`for j := i; j > a && data.Less(j,
j-1); j--`): the element sifts left past strictly greater elements and stops
at the first element less than or equal to it. -/
def insertR (lt : α → α → Bool) : List α → α → List α
  | [], x => [x]
  | y :: ys, x => if lt x y then x :: y :: ys else y :: insertR lt ys x

/-- Go's `insertionSort_func` on a whole list: left-to-right insertion of each
element into the sorted prefix.  This is a stable sort. -/
def insertionSortGo (lt : α → α → Bool) (l : List α) : List α :=
  l.foldl (insertR lt) []

/-- Go's `insertionSort_func(data, a, b)` restricted to the range `[a, b)` of
a slice. -/
def insertionSortRange [Inhabited α] (lt : α → α → Bool) (l : List α) (a b : Nat) : List α :=
  let seg := (l.drop a).take (b - a)
  l.take a ++ insertionSortGo lt seg ++ l.drop (a + (b - a))

/-- One step of Go's `siftDown_func` loop, with fuel. -/
def siftDownGo [Inhabited α] (lt : α → α → Bool) :
    Nat → List α → Nat → Nat → Nat → List α
  | 0, arr, _, _, _ => arr
  | fuel+1, arr, root, hi, first =>
    let child := 2 * root + 1
    if child ≥ hi then arr
    else
      let child :=
        if child + 1 < hi ∧ lt (aget arr (first + child)) (aget arr (first + child + 1)) then
          child + 1
        else child
      if lt (aget arr (first + root)) (aget arr (first + child)) then
        siftDownGo lt fuel (aswap arr (first + root) (first + child)) child hi first
      else arr

/-- Go's `heapSort_func(data, a, b)`: build a max-heap over `[a, b)`, then pop
the maximum to the end repeatedly. -/
def heapSortGo [Inhabited α] (lt : α → α → Bool) (arr : List α) (a b : Nat) : List α :=
  let first := a
  let hi := b - a
  let arr :=
    (List.range ((hi - 1) / 2 + 1)).reverse.foldl
      (fun ar i => siftDownGo lt (hi + 1) ar i hi first) arr
  (List.range hi).reverse.foldl
    (fun ar i => siftDownGo lt (hi + 1) (aswap ar first (first + i)) 0 i first) arr

/-- Go's `xorshift.Next` pseudo-random step (`r ^= r << 13; r ^= r >> 7;
r ^= r << 17`). -/
def xorshiftNext (r : UInt64) : UInt64 :=
  let r := r ^^^ (r <<< 13)
  let r := r ^^^ (r >>> 7)
  r ^^^ (r <<< 17)

/-- Go's `bits.Len` on a natural number. -/
def bitsLen (n : Nat) : Nat := if n = 0 then 0 else n.log2 + 1

/-- Go's `breakPatterns_func`: scramble three elements around the midpoint
using a deterministic xorshift generator seeded with the range length. -/
def breakPatternsGo [Inhabited α] (arr : List α) (a b : Nat) : List α :=
  let length := b - a
  if length ≥ 8 then
    let modulus := (1 : Nat) <<< bitsLen length
    let idx := a + (length / 4) * 2 - 1
    let step := fun (st : List α × UInt64) (i : Nat) =>
      let (ar, r) := st
      let r := xorshiftNext r
      let other := r.toNat &&& (modulus - 1)
      let other := if other ≥ length then other - length else other
      (aswap ar (idx - 1 + i) (a + other), r)
    ((List.range 3).foldl step (arr, UInt64.ofNat length)).1
  else arr

/-- Sortedness hints returned by Go's `choosePivot_func`. -/
inductive SortHint where
  | increasing
  | decreasing
  | unknown
deriving DecidableEq, Repr

/-- Go's `order2_func`: order two indices by the elements they point at,
counting a swap when they are exchanged. -/
def order2Go [Inhabited α] (lt : α → α → Bool) (arr : List α) (a b swaps : Nat) :
    Nat × Nat × Nat :=
  if lt (aget arr b) (aget arr a) then (b, a, swaps + 1) else (a, b, swaps)

/-- Go's `median_func`: index of the median of three elements. -/
def medianGo [Inhabited α] (lt : α → α → Bool) (arr : List α) (a b c swaps : Nat) :
    Nat × Nat :=
  let (a, b, swaps) := order2Go lt arr a b swaps
  let (b, _, swaps) := order2Go lt arr b c swaps
  let (_, b, swaps) := order2Go lt arr a b swaps
  (b, swaps)

/-- Go's `medianAdjacent_func`: median of an index and its two neighbours. -/
def medianAdjacentGo [Inhabited α] (lt : α → α → Bool) (arr : List α) (a swaps : Nat) :
    Nat × Nat :=
  medianGo lt arr (a - 1) a (a + 1) swaps

/-- Go's `choosePivot_func`: median-of-three pivot selection (median of
medians, the "ninther", for ranges of at least 50 elements), together with a
sortedness hint derived from the number of swaps the median computations
performed. -/
def choosePivotGo [Inhabited α] (lt : α → α → Bool) (arr : List α) (a b : Nat) :
    Nat × SortHint :=
  let length := b - a
  let i := a + (length / 4) * 1
  let j := a + (length / 4) * 2
  let k := a + (length / 4) * 3
  if length ≥ 8 then
    let (i, j, k, swaps) :=
      if length ≥ 50 then
        let (i, s1) := medianAdjacentGo lt arr i 0
        let (j, s2) := medianAdjacentGo lt arr j s1
        let (k, s3) := medianAdjacentGo lt arr k s2
        (i, j, k, s3)
      else (i, j, k, 0)
    let (j, swaps) := medianGo lt arr i j k swaps
    if swaps = 0 then (j, SortHint.increasing)
    else if swaps = 12 then (j, SortHint.decreasing)
    else (j, SortHint.unknown)
  else (j, SortHint.unknown)

/-- Go's `reverseRange_func`, with fuel. -/
def reverseRangeGo [Inhabited α] : Nat → List α → Nat → Nat → List α
  | 0, arr, _, _ => arr
  | fuel+1, arr, i, j => if i < j then reverseRangeGo fuel (aswap arr i j) (i + 1) (j - 1) else arr

/-- The scan `for i < b && !data.Less(i, i-1) { i++ }` of Go's
`partialInsertionSort_func`, with fuel. -/
def pisScan [Inhabited α] (lt : α → α → Bool) (arr : List α) (b : Nat) :
    Nat → Nat → Nat
  | 0, i => i
  | fuel+1, i =>
    if i < b then
      if lt (aget arr i) (aget arr (i - 1)) then i else pisScan lt arr b fuel (i + 1)
    else i

/-- The left shift of `partialInsertionSort_func` (`for j := i - 1; j >= 1;
j--`), with the loop index driven structurally. -/
def pisShiftLeft [Inhabited α] (lt : α → α → Bool) : List α → Nat → List α
  | arr, 0 => arr
  | arr, j+1 =>
    if j + 1 ≥ 1 ∧ lt (aget arr (j + 1)) (aget arr j) then
      pisShiftLeft lt (aswap arr (j + 1) j) j
    else arr

/-- The right shift of `partialInsertionSort_func` (`for j := i + 1; j < b;
j++`), with fuel. -/
def pisShiftRight [Inhabited α] (lt : α → α → Bool) (b : Nat) :
    Nat → List α → Nat → List α
  | 0, arr, _ => arr
  | fuel+1, arr, j =>
    if j < b then
      if lt (aget arr j) (aget arr (j - 1)) then
        pisShiftRight lt b fuel (aswap arr j (j - 1)) (j + 1)
      else arr
    else arr

/-- The main loop of Go's `partialInsertionSort_func` (at most `maxSteps = 5`
adjacent out-of-order pairs get shifted; no shifting happens on ranges shorter
than `shortestShifting = 50`).  Returns the array and whether it ended up
sorted. -/
def pisLoop [Inhabited α] (lt : α → α → Bool) (a b : Nat) :
    Nat → List α → Nat → List α × Bool
  | 0, arr, _ => (arr, false)
  | steps+1, arr, i =>
    let i := pisScan lt arr b (b + 1) i
    if i = b then (arr, true)
    else if b - a < 50 then (arr, false)
    else
      let arr := aswap arr i (i - 1)
      let arr := if i - a ≥ 2 then pisShiftLeft lt arr (i - 1) else arr
      let arr := if b - i ≥ 2 then pisShiftRight lt b (b + 1) arr (i + 1) else arr
      pisLoop lt a b steps arr (i + 1)

/-- Go's `partialInsertionSort_func(data, a, b)`. -/
def partialInsertionSortGo [Inhabited α] (lt : α → α → Bool) (arr : List α) (a b : Nat) :
    List α × Bool :=
  pisLoop lt a b 5 arr (a + 1)

/-- The scan `for i <= j && data.Less(i, a) { i++ }` of `partition_func`. -/
def scanLtI [Inhabited α] (lt : α → α → Bool) (arr : List α) (a : Nat) :
    Nat → Nat → Nat → Nat
  | 0, i, _ => i
  | fuel+1, i, j =>
    if i ≤ j ∧ lt (aget arr i) (aget arr a) then scanLtI lt arr a fuel (i + 1) j else i

/-- The scan `for i <= j && !data.Less(j, a) { j-- }` of `partition_func`. -/
def scanGeJ [Inhabited α] (lt : α → α → Bool) (arr : List α) (a : Nat) :
    Nat → Nat → Nat → Nat
  | 0, _, j => j
  | fuel+1, i, j =>
    if i ≤ j ∧ ¬ lt (aget arr j) (aget arr a) then scanGeJ lt arr a fuel i (j - 1) else j

/-- The swapping loop of Go's `partition_func`, with fuel. -/
def partitionLoop [Inhabited α] (lt : α → α → Bool) (a b : Nat) :
    Nat → List α → Nat → Nat → List α × Nat
  | 0, arr, _, j => (arr, j)
  | fuel+1, arr, i, j =>
    let i := scanLtI lt arr a (b + 2) i j
    let j := scanGeJ lt arr a (b + 2) i j
    if i > j then (arr, j)
    else partitionLoop lt a b fuel (aswap arr i j) (i + 1) (j - 1)

/-- Go's `partition_func(data, a, b, pivot)`: Hoare partition around the
pivot, which is first swapped to position `a` and finally swapped to its
resting place `j`.  Returns the new pivot position and whether the range was
already partitioned. -/
def partitionGo [Inhabited α] (lt : α → α → Bool) (arr : List α) (a b pivot : Nat) :
    List α × Nat × Bool :=
  let arr := aswap arr a pivot
  let i := a + 1
  let j := b - 1
  let i := scanLtI lt arr a (b + 2) i j
  let j := scanGeJ lt arr a (b + 2) i j
  if i > j then (aswap arr j a, j, true)
  else
    let arr := aswap arr i j
    let (arr, j') := partitionLoop lt a b (b + 2) arr (i + 1) (j - 1)
    (aswap arr j' a, j', false)

/-- The scan `for i <= j && !data.Less(a, i) { i++ }` of
`partitionEqual_func`. -/
def scanEqI [Inhabited α] (lt : α → α → Bool) (arr : List α) (a : Nat) :
    Nat → Nat → Nat → Nat
  | 0, i, _ => i
  | fuel+1, i, j =>
    if i ≤ j ∧ ¬ lt (aget arr a) (aget arr i) then scanEqI lt arr a fuel (i + 1) j else i

/-- The scan `for i <= j && data.Less(a, j) { j-- }` of
`partitionEqual_func`. -/
def scanEqJ [Inhabited α] (lt : α → α → Bool) (arr : List α) (a : Nat) :
    Nat → Nat → Nat → Nat
  | 0, _, j => j
  | fuel+1, i, j =>
    if i ≤ j ∧ lt (aget arr a) (aget arr j) then scanEqJ lt arr a fuel i (j - 1) else j

/-- The swapping loop of Go's `partitionEqual_func`, with fuel. -/
def partitionEqualLoop [Inhabited α] (lt : α → α → Bool) (a b : Nat) :
    Nat → List α → Nat → Nat → List α × Nat
  | 0, arr, i, _ => (arr, i)
  | fuel+1, arr, i, j =>
    let i := scanEqI lt arr a (b + 2) i j
    let j := scanEqJ lt arr a (b + 2) i j
    if i > j then (arr, i)
    else partitionEqualLoop lt a b fuel (aswap arr i j) (i + 1) (j - 1)

/-- Go's `partitionEqual_func(data, a, b, pivot)`: partitions the range into
elements equal to the pivot followed by elements greater than it. -/
def partitionEqualGo [Inhabited α] (lt : α → α → Bool) (arr : List α) (a b pivot : Nat) :
    List α × Nat :=
  let arr := aswap arr a pivot
  partitionEqualLoop lt a b (b + 2) arr (a + 1) (b - 1)

/-- Go's `pdqsort_func(data, a, b, limit)`.  The outer `for` loop and the
recursion on the shorter side are driven by one shared fuel argument, chosen
large enough by `sortSliceGo` to never run out on terminating Go runs. -/
def pdqsortLoop [Inhabited α] (lt : α → α → Bool) :
    Nat → List α → Nat → Nat → Nat → Bool → Bool → List α
  | 0, arr, _, _, _, _, _ => arr
  | fuel+1, arr, a, b, limit, wasBalanced, wasPartitioned =>
    let length := b - a
    if length ≤ 12 then insertionSortRange lt arr a b
    else if limit = 0 then heapSortGo lt arr a b
    else
      let (arr, limit) :=
        if ¬ wasBalanced then (breakPatternsGo arr a b, limit - 1) else (arr, limit)
      let (pivot, hint) := choosePivotGo lt arr a b
      let (arr, pivot, hint) :=
        if hint = SortHint.decreasing then
          (reverseRangeGo (b + 1) arr a (b - 1), (b - 1) - (pivot - a), SortHint.increasing)
        else (arr, pivot, hint)
      let (arr, sorted) :=
        if wasBalanced ∧ wasPartitioned ∧ hint = SortHint.increasing then
          partialInsertionSortGo lt arr a b
        else (arr, false)
      if sorted then arr
      else if a > 0 ∧ ¬ lt (aget arr (a - 1)) (aget arr pivot) then
        let (arr, mid) := partitionEqualGo lt arr a b pivot
        pdqsortLoop lt fuel arr mid b limit wasBalanced wasPartitioned
      else
        let (arr, mid, alreadyPartitioned) := partitionGo lt arr a b pivot
        let wasPartitioned := alreadyPartitioned
        let leftLen := mid - a
        let rightLen := b - mid
        let balanceThreshold := length / 8
        let wasBalanced := min leftLen rightLen ≥ balanceThreshold
        if leftLen < rightLen then
          let arr := pdqsortLoop lt fuel arr a mid limit wasBalanced wasPartitioned
          pdqsortLoop lt fuel arr (mid + 1) b limit wasBalanced wasPartitioned
        else
          let arr := pdqsortLoop lt fuel arr (mid + 1) b limit wasBalanced wasPartitioned
          pdqsortLoop lt fuel arr a mid limit wasBalanced wasPartitioned

/-- Go's `sort.Slice(x, less)`: `pdqsort(data, 0, length, bits.Len(length))`.
Since `pdqsort_func` immediately runs plain insertion sort when the range
holds at most 12 elements (`maxInsertion = 12`), that branch is taken here
directly, as the stable list-level `insertionSortGo`; longer slices go through
the transcribed (unstable) `pdqsortLoop`. -/
def sortSliceGo [Inhabited α] (lt : α → α → Bool) (l : List α) : List α :=
  if l.length ≤ 12 then insertionSortGo lt l
  else pdqsortLoop lt (2 * l.length + 16) l 0 l.length (bitsLen l.length) true true

/-! ## The trip selector (`selectTrip` in `main.go`)

`selectTrip` takes `now := time.Now().Unix()` inside the Go function; the
reference instant is a parameter of the model. -/

/-- The ongoing test of `selectTrip`'s loop:
`t.StartDate <= now && (t.EndDate == nil || *t.EndDate >= now)`. -/
def isOngoing (now : Int) (t : Trip) : Bool :=
  decide (t.startDate ≤ now) &&
    (match t.endDate with
     | none => true
     | some e => decide (e ≥ now))

/-- The future test of `selectTrip`'s loop: `t.StartDate > now`. -/
def isFuture (now : Int) (t : Trip) : Bool := decide (t.startDate > now)

/-- The past test of `selectTrip`'s loop:
`t.EndDate != nil && *t.EndDate < now`. -/
def isPastCand (now : Int) (t : Trip) : Bool :=
  match t.endDate with
  | none => false
  | some e => decide (e < now)

/-- The classification loop of `selectTrip`: scan the trips in input order;
the first ongoing trip is captured and the loop `break`s (so later records
are not classified); every other scanned record is appended to the future
and/or past bucket according to the two independent `if`s. -/
def classifyLoop (now : Int) : List Trip → Option Trip × List Trip × List Trip
  | [] => (none, [], [])
  | t :: ts =>
    if isOngoing now t then (some t, [], [])
    else
      let (c, f, p) := classifyLoop now ts
      (c, (if isFuture now t then t :: f else f), (if isPastCand now t then t :: p else p))

/-- The comparator of `sort.Slice(future, ...)`:
`future[i].StartDate < future[j].StartDate`. -/
def futureLess (a b : Trip) : Bool := decide (a.startDate < b.startDate)

/-- The comparator of `sort.Slice(past, ...)`:
`*past[i].EndDate > *past[j].EndDate`.  The pointer dereference is total here
(`getD 0`); the theorem for claim C10 shows every past-bucket record has
`endDate ≠ none`, so the default is never consulted. -/
def pastLess (a b : Trip) : Bool := decide (a.endDate.getD 0 > b.endDate.getD 0)

/-- `selectTrip` from `main.go`: classify, sort the future bucket by earliest
start and the past bucket by latest end, then pick ongoing, else the first
future, else the first past, else nil. -/
def selectTrip (trips : List Trip) (now : Int) : Option Trip :=
  match classifyLoop now trips with
  | (current, future, past) =>
    let futureS := sortSliceGo futureLess future
    let pastS := sortSliceGo pastLess past
    match current with
    | some t => some t
    | none =>
      match futureS with
      | f :: _ => some f
      | [] =>
        match pastS with
        | p :: _ => some p
        | [] => none

/-! ## Host normalization and the request handler (`handler` in `main.go`)

The handler's side effects (geolocation, visit logging, analytics) are outside
the engine per the spec's scope and do not influence the redirect or the
cache; they are not modelled.  The inbound host (after the `X-Forwarded-Host`
fallback) and the upstream fetch outcome are parameters. -/

/-- The characters of the literal prefix `"www."`. -/
def wwwChars : List Char := ['w', 'w', 'w', '.']

/-- `if len(host) > 4 && host[:4] == "www." { host = host[4:] }`, on the
character list of the host.  Go indexes bytes; on ASCII hostnames bytes and
characters coincide. -/
def normalizeHostL (h : List Char) : List Char :=
  if h.length > 4 ∧ h.take 4 = wwwChars then h.drop 4 else h

/-- Host normalization as performed by `handler`: strip one leading `www.`
(case-sensitively); no other transformation. -/
def normalizeHost (h : String) : String := String.mk (normalizeHostL h.data)

/-! ### A model of the JSON payload and of `encoding/json`

`fetchUserTrips` decodes the body twice: first into a
`map[string]interface{}` (failing only if the payload is not a JSON object or
JSON `null`), then — after re-marshalling — into the typed `ApiResponse`
struct.  Go's `json.Unmarshal` records the *first* type error it meets but
keeps decoding, leaving mismatched fields at their zero values; the caller
sees `data` partially populated *and* a non-nil error.  The decoders below
model a JSON value, the per-field coercion (`null` never errors and leaves
the zero value; a shape mismatch errors), and the first-error flag.

JSON numbers are modelled as integers: the trip fields the code reads are
integral, and no claim depends on fractional numbers. -/

inductive Json where
  | null
  | bool (b : Bool)
  | num (n : Int)
  | str (s : String)
  | arr (elems : List Json)
  | obj (fields : List (String × Json))
deriving Repr

/-- ASCII lower-casing of one character (the fragment of Go's case folding
the modelled field names exercise). -/
def lowerChar (c : Char) : Char :=
  if 'A' ≤ c ∧ c ≤ 'Z' then Char.ofNat (c.toNat + 32) else c

/-- ASCII lower-casing of a string. -/
def lowerAscii (s : String) : String := String.mk (s.data.map lowerChar)

/-- Struct-field lookup as in `encoding/json`: an exact tag match is
preferred, otherwise a case-insensitive match (modelled as ASCII folding; the
struct tags are plain ASCII).  Object keys are assumed distinct, as produced
by Go's map re-marshalling. -/
def findField (fields : List (String × Json)) (tag : String) : Option Json :=
  match fields.find? (fun kv => decide (kv.1 = tag)) with
  | some kv => some kv.2
  | none =>
    match fields.find? (fun kv => decide (lowerAscii kv.1 = tag)) with
    | some kv => some kv.2
    | none => none

/-- Decode a JSON value into a Go `int`/`int64` field: an absent field or
`null` leaves the zero value without error; a number is taken; anything else
is a type error (field left at zero, error recorded). -/
def decInt : Option Json → Int × Bool
  | none => (0, false)
  | some (.num n) => (n, false)
  | some .null => (0, false)
  | some _ => (0, true)

/-- Decode a JSON value into a Go `string` field. -/
def decStr : Option Json → String × Bool
  | none => ("", false)
  | some (.str s) => (s, false)
  | some .null => ("", false)
  | some _ => ("", true)

/-- Decode a JSON value into a Go `*int64` field: `null` (or absence) yields
the nil pointer without error. -/
def decOptInt : Option Json → Option Int × Bool
  | none => (none, false)
  | some (.num n) => (some n, false)
  | some .null => (none, false)
  | some _ => (none, true)

/-- `json.Unmarshal` of one element into `Trip` (tags `id`, `slug`,
`start_date`, `end_date`): field-wise coercion; unknown keys are ignored; a
non-object non-null element is a type error yielding the zero `Trip`. -/
def decodeTrip : Json → Trip × Bool
  | .obj fs =>
    let (idv, e1) := decInt (findField fs "id")
    let (slugv, e2) := decStr (findField fs "slug")
    let (startv, e3) := decInt (findField fs "start_date")
    let (endv, e4) := decOptInt (findField fs "end_date")
    (⟨idv, slugv, startv, endv⟩, e1 || e2 || e3 || e4)
  | .null => (default, false)
  | _ => (default, true)

/-- `json.Unmarshal` of a JSON value into `[]Trip`: an array decodes every
element (a failing element is kept, partially decoded, and the error is
recorded — it is not dropped); `null` leaves the nil slice; anything else is
a type error leaving the nil slice. -/
def decodeTripList : Json → List Trip × Bool
  | .arr es => (es.map (fun e => (decodeTrip e).1), es.any (fun e => (decodeTrip e).2))
  | .null => ([], false)
  | _ => ([], true)

/-- `json.Unmarshal` of one struct field of the re-marshalled object into a
`[]Trip` field of `ApiResponse`: an absent field leaves the nil slice without
error. -/
def decField (fs : List (String × Json)) (tag : String) : List Trip × Bool :=
  match findField fs tag with
  | none => ([], false)
  | some v => decodeTripList v

/-- `json.Unmarshal` of the re-marshalled object into `ApiResponse`
(fields `alltrips`, `trips`, `data`): each present field is decoded as a trip
list; the error flag is the disjunction (Go returns the first saved error). -/
def decodeApi (fs : List (String × Json)) :
    (List Trip × List Trip × List Trip) × Bool :=
  (((decField fs "alltrips").1, (decField fs "trips").1, (decField fs "data").1),
   (decField fs "alltrips").2 || (decField fs "trips").2 || (decField fs "data").2)

/-- Lookup in the raw `map[string]interface{}` (exact key). -/
def rawLookup (fs : List (String × Json)) (k : String) : Option Json :=
  (fs.find? (fun kv => decide (kv.1 = k))).map (fun kv => kv.2)

/-- The normalizer part of `fetchUserTrips`, applied to a decoded JSON body:
decode into the raw map (error unless the payload is an object or `null`),
then into `ApiResponse` (error on any field type mismatch), then take the
first non-empty of `alltrips`, `trips`, `data`; if all are empty, probe the
raw map's `trips` key, ignoring any unmarshal error; an absent or empty trip
list is a legitimate `ok []`, not an error. -/
def normalizeTrips : Json → Except Unit (List Trip)
  | .obj fs =>
    if (decodeApi fs).2 then .error ()
    else if (decField fs "alltrips").1.length > 0 then .ok (decField fs "alltrips").1
    else if (decField fs "trips").1.length > 0 then .ok (decField fs "trips").1
    else if (decField fs "data").1.length > 0 then .ok (decField fs "data").1
    else
      match rawLookup fs "trips" with
      | some v => .ok (decodeTripList v).1
      | none => .ok []
  | .null => .ok []
  | _ => .error ()

/-- Outcome of the upstream HTTP call in `fetchUserTrips`: a transport error,
or a response with a status code and a JSON body. -/
inductive FetchOutcome where
  | transportError
  | response (status : Nat) (body : Json)

/-- `fetchUserTrips` after the HTTP call: a transport error or a status other
than `http.StatusOK` (200) is a fetch failure; otherwise the body is
normalized. -/
def fetchUserTripsModel (o : FetchOutcome) : Except Unit (List Trip) :=
  match o with
  | .transportError => .error ()
  | .response status body => if status = 200 then normalizeTrips body else .error ()

/-- The handler's response: `http.NotFound` or an `http.Redirect` target
(status `http.StatusFound`). -/
inductive HandlerResult where
  | notFound
  | redirect (target : String)
deriving DecidableEq, Repr

/-- The fallback target `"https://polarsteps.com/" + username`. -/
def profileURL (username : String) : String := "https://polarsteps.com/" ++ username

/-- `fmt.Sprintf("https://polarsteps.com/%s/%d-%s", username, trip.ID,
trip.Slug)`. -/
def tripURL (username : String) (t : Trip) : String :=
  "https://polarsteps.com/" ++ username ++ "/" ++ toString t.id ++ "-" ++ t.slug

/-- The request handler (`handler` in `main.go`), as a function of the domain
table, the current cache contents, the upstream fetch outcome, the reference
instant and the inbound host.  Returns the response and the cache after the
request.  The cache map is modelled as an association list where an insert
prepends (shadowing any older binding, as a Go map overwrite does). -/
def handlerModel (domains cache : List (String × String)) (o : FetchOutcome)
    (now : Int) (host0 : String) : HandlerResult × List (String × String) :=
  let host := normalizeHost host0
  match domains.lookup host with
  | none => (.notFound, cache)
  | some username =>
    match cache.lookup host with
    | some url => (.redirect url, cache)
    | none =>
      match fetchUserTripsModel o with
      | .error _ => (.redirect (profileURL username), cache)
      | .ok trips =>
        if trips.length = 0 then (.redirect (profileURL username), cache)
        else
          match selectTrip trips now with
          | none => (.redirect (profileURL username), cache)
          | some t => (.redirect (tripURL username t), (host, tripURL username t) :: cache)

/-! ## The daily cache resetter (`startCacheResetter` in `main.go`)

The loop body reads the current time, computes
`time.Date(Y, M, D, 0, 0, 0, 0, loc).Add(24h)` — the instant of *today's*
local midnight plus 24 hours — sleeps until then, resets the cache, sleeps a
further 60 seconds, and loops (recomputing the next boundary from the new
current time).  Wall-clock time is modelled as seconds (`Int`); a location is
an offset function from UTC instants to UTC offsets plus the resolution
`time.Date` performs from a local wall time back to an instant. -/

/-- A time location: `offset u` is the UTC offset in effect at UTC instant
`u`; `fromLocal ℓ` is the UTC instant whose local representation is the wall
time `ℓ`, as `time.Date` resolves it. -/
structure Loc where
  offset : Int → Int
  fromLocal : Int → Int

/-- Seconds per day. -/
def daySecs : Int := 86400

/-- Local wall time at UTC instant `u`. -/
def localTime (L : Loc) (u : Int) : Int := u + L.offset u

/-- Truncation of a local wall time to its local midnight
(`time.Date(now.Year(), now.Month(), now.Day(), 0, 0, 0, 0, now.Location())`
on the seconds model). -/
def dayStart (ℓ : Int) : Int := ℓ - ℓ % daySecs

/-- The instant the resetter sleeps to, computed from the current instant
`u`: the instant of today's local midnight, plus 24 hours (`.Add(24 *
time.Hour)`). -/
def nextMidnightInstant (L : Loc) (u : Int) : Int :=
  L.fromLocal (dayStart (localTime L u)) + daySecs

/-- The instants at which the first `k` cache resets happen, starting the
loop at instant `t0`: each cycle recomputes the boundary from the current
instant, sleeps to it, resets, then sleeps 60 more seconds before the next
iteration. -/
def codeResets (L : Loc) (t0 : Int) : Nat → List Int
  | 0 => []
  | k+1 =>
    let r := nextMidnightInstant L t0
    r :: codeResets L (r + 60) k

/-- Modelled from the spec claim (not from the code): the duration until the
next local midnight is computed once, and after the first reset the task
re-arms by sleeping a fixed 24-hour period, so the `i`-th reset is the first
boundary plus `i` days. -/
def claimResets (L : Loc) (t0 : Int) (k : Nat) : List Int :=
  (List.range k).map (fun i : Nat => nextMidnightInstant L t0 + daySecs * (i : Int))

/-- A location with a constant UTC offset (no daylight-saving
transitions). -/
def constLoc (off : Int) : Loc := ⟨fun _ => off, fun ℓ => ℓ - off⟩

/-- A location with one offset transition: offset `off1` before UTC instant
`tr`, offset `off2` from `tr` on; local wall times resolve to instants
accordingly (away from the ambiguous hour this matches `time.Date`). -/
def dstLoc (off1 off2 tr : Int) : Loc :=
  ⟨fun u => if u < tr then off1 else off2,
   fun ℓ => if ℓ - off2 ≥ tr then ℓ - off2 else ℓ - off1⟩

/-! ## Auxiliary notions and concrete instances used by the theorems -/

/-- The comparator induced by an integer key: `key a < key b`. -/
def keyLt (key : α → Int) (a b : α) : Bool := decide (key a < key b)

/-- The running "first minimum" of a list, seeded with `h`: a later element
replaces the current one only when it compares strictly smaller.  This is the
value a stable insertion sort leaves at the head. -/
def runMin (lt : α → α → Bool) (h : α) (l : List α) : α :=
  l.foldl (fun m x => if lt x m then x else m) h

/-- The arithmetic progression `m, m + step, ...` of length `k`, used to
compare the two reset schedules. -/
def arithSeq (m step : Int) : Nat → List Int
  | 0 => []
  | k+1 => m :: arithSeq (m + step) step k

/-- A purely future trip (no declared end). -/
def mkFutureTrip (i s : Int) : Trip := ⟨i, "", s, none⟩

/-- A purely past trip (started long ago, ended at `e`). -/
def mkPastTrip (i e : Int) : Trip := ⟨i, "", -1000, some e⟩

/-- Thirteen future trips (relative to `now = 0`); the two trips with the
minimal `startDate = 1` are the first two in input order (ids 1 and 2).
Thirteen elements push `sort.Slice` past its insertion-sort cutoff of 12 into
the unstable quicksort. -/
def c2trips : List Trip :=
  [mkFutureTrip 1 1, mkFutureTrip 2 1, mkFutureTrip 3 6, mkFutureTrip 4 11,
   mkFutureTrip 5 5, mkFutureTrip 6 7, mkFutureTrip 7 21, mkFutureTrip 8 9,
   mkFutureTrip 9 8, mkFutureTrip 10 31, mkFutureTrip 11 10, mkFutureTrip 12 12,
   mkFutureTrip 13 13]

/-- Thirteen past trips (relative to `now = 100`); the two trips with the
maximal `endDate = 90` are the first two in input order (ids 1 and 2). -/
def c3trips : List Trip :=
  [mkPastTrip 1 90, mkPastTrip 2 90, mkPastTrip 3 85, mkPastTrip 4 80,
   mkPastTrip 5 86, mkPastTrip 6 84, mkPastTrip 7 70, mkPastTrip 8 82,
   mkPastTrip 9 83, mkPastTrip 10 60, mkPastTrip 11 81, mkPastTrip 12 79,
   mkPastTrip 13 78]

/-- The upstream body of the spec's Scenario A: one trip
`{id: 5, slug: "peru", start: -100, end: null}`. -/
def scenarioABody : Json :=
  .obj [("alltrips", .arr [.obj [("id", .num 5), ("slug", .str "peru"),
                                 ("start_date", .num (-100)), ("end_date", .null)]])]

/-- A well-formed trip element. -/
def goodTripJson : Json :=
  .obj [("id", .num 5), ("slug", .str "peru"), ("start_date", .num 10), ("end_date", .null)]

/-! ## Lemmas about the classification loop -/

/-- First component of the classifier on a cons cell. -/
theorem classifyLoop_fst_cons (now : Int) (u : Trip) (ts : List Trip) :
    (classifyLoop now (u :: ts)).1 =
      if isOngoing now u then some u else (classifyLoop now ts).1 := by
  rcases hcl : classifyLoop now ts with ⟨c, f, p⟩
  simp only [classifyLoop, hcl]
  split <;> rfl

/-- When no trip is ongoing, the loop scans the whole list and the buckets
are exactly the filters of the two membership tests, in input order. -/
theorem classifyLoop_of_no_ongoing (now : Int) :
    ∀ trips : List Trip, (∀ t ∈ trips, isOngoing now t = false) →
      classifyLoop now trips =
        (none, trips.filter (isFuture now), trips.filter (isPastCand now)) := by
  intro trips
  induction trips with
  | nil => intro _; simp [classifyLoop]
  | cons t ts ih =>
    intro h
    have ht : isOngoing now t = false := h t (List.mem_cons_self t ts)
    have hts : ∀ u ∈ ts, isOngoing now u = false :=
      fun u hu => h u (List.mem_cons_of_mem t hu)
    simp only [classifyLoop, ht, Bool.false_eq_true, if_false, ih hts, List.filter_cons]

/-- The first component of the classifier on a list whose first ongoing
record is `t`: earlier records are all skipped into the buckets and `t` is
captured. -/
theorem classifyLoop_fst_append (now : Int) (t : Trip) (post : List Trip)
    (ht : isOngoing now t = true) :
    ∀ pre : List Trip, (∀ u ∈ pre, isOngoing now u = false) →
      (classifyLoop now (pre ++ t :: post)).1 = some t := by
  intro pre
  induction pre with
  | nil => intro _; simp [classifyLoop, ht]
  | cons u us ih =>
    intro h
    have hu : isOngoing now u = false := h u (List.mem_cons_self u us)
    have hus := ih (fun v hv => h v (List.mem_cons_of_mem u hv))
    rw [List.cons_append, classifyLoop_fst_cons, hu]
    simpa using hus

/-! ## Lemmas about the head of the stable insertion sort -/

theorem insertR_ne_nil (lt : α → α → Bool) (acc : List α) (x : α) :
    insertR lt acc x ≠ [] := by
  cases acc with
  | nil => simp [insertR]
  | cons y ys =>
    simp only [insertR]
    split <;> simp

theorem head?_insertR (lt : α → α → Bool) (y : α) (ys : List α) (x : α) :
    (insertR lt (y :: ys) x).head? = some (if lt x y then x else y) := by
  simp only [insertR]
  split <;> simp_all

/-- The head of the left fold of `insertR` is the running minimum of the
inserted elements, seeded with the head of the accumulator. -/
theorem foldl_insertR_head (lt : α → α → Bool) :
    ∀ (l acc : List α) (h : α), acc.head? = some h →
      (List.foldl (insertR lt) acc l).head? = some (runMin lt h l) := by
  intro l
  induction l with
  | nil => intro acc h hh; simpa [runMin] using hh
  | cons x xs ih =>
    intro acc h hh
    cases acc with
    | nil => simp at hh
    | cons a as =>
      simp only [List.head?_cons, Option.some.injEq] at hh
      subst hh
      rw [List.foldl_cons]
      have hstep := ih (insertR lt (a :: as) x) (if lt x a then x else a)
        (head?_insertR lt a as x)
      rw [hstep]
      simp [runMin]

/-- The head after Go's insertion sort of a non-empty list. -/
theorem insertionSortGo_head (lt : α → α → Bool) (x : α) (xs : List α) :
    (insertionSortGo lt (x :: xs)).head? = some (runMin lt x xs) := by
  unfold insertionSortGo
  rw [List.foldl_cons]
  exact foldl_insertR_head lt xs (insertR lt [] x) x (by simp [insertR])

/-- Characterization of the running minimum for a key-induced comparator:
it occurs in the list, every element before its (first) occurrence has a
strictly larger key, and it has a minimal key overall. -/
theorem runMin_keyLt_spec (key : α → Int) :
    ∀ (l : List α) (h : α),
      ∃ l₁ l₂, h :: l = l₁ ++ runMin (keyLt key) h l :: l₂ ∧
        (∀ t ∈ l₁, key (runMin (keyLt key) h l) < key t) ∧
        ∀ t ∈ h :: l, key (runMin (keyLt key) h l) ≤ key t := by
  intro l
  induction l with
  | nil =>
    intro h
    refine ⟨[], [], by simp [runMin], by simp, ?_⟩
    intro t ht
    simp only [List.mem_singleton] at ht
    simp [ht, runMin]
  | cons a xs ih =>
    intro h
    have hstep : runMin (keyLt key) h (a :: xs) =
        runMin (keyLt key) (if keyLt key a h then a else h) xs := by
      simp [runMin]
    by_cases hc : keyLt key a h = true
    · have hkey : key a < key h := by simpa [keyLt] using hc
      rw [hstep, if_pos hc]
      obtain ⟨l₁, l₂, hdec, hbef, hmin⟩ := ih a
      generalize hm : runMin (keyLt key) a xs = m at hdec hbef hmin ⊢
      have hma : key m ≤ key a := hmin a (List.mem_cons_self a xs)
      refine ⟨h :: l₁, l₂, ?_, ?_, ?_⟩
      · rw [List.cons_append, ← hdec]
      · intro t htm
        rcases List.mem_cons.mp htm with rfl | htm
        · omega
        · exact hbef t htm
      · intro t htm
        rcases List.mem_cons.mp htm with rfl | htm
        · omega
        · exact hmin t htm
    · have hkey : ¬ key a < key h := by simpa [keyLt] using hc
      rw [hstep, if_neg hc]
      obtain ⟨l₁, l₂, hdec, hbef, hmin⟩ := ih h
      generalize hm : runMin (keyLt key) h xs = m at hdec hbef hmin ⊢
      have hmh : key m ≤ key h := hmin h (List.mem_cons_self h xs)
      cases l₁ with
      | nil =>
        simp only [List.nil_append, List.cons.injEq] at hdec
        obtain ⟨hh, hxs⟩ := hdec
        refine ⟨[], a :: xs, by rw [← hh]; rfl, by simp, ?_⟩
        intro t htm
        rcases List.mem_cons.mp htm with heq | htm
        · rw [heq]; exact hmh
        · rcases List.mem_cons.mp htm with heq | htm
          · rw [heq]; omega
          · exact hmin _ (List.mem_cons_of_mem h htm)
      | cons w l₁' =>
        simp only [List.cons_append, List.cons.injEq] at hdec
        obtain ⟨hw, hxs⟩ := hdec
        have hmw : key m < key w := hbef w (List.mem_cons_self w l₁')
        rw [← hw] at hmw
        refine ⟨h :: a :: l₁', l₂, ?_, ?_, ?_⟩
        · rw [List.cons_append, List.cons_append, ← hxs]
        · intro t htm
          rcases List.mem_cons.mp htm with heq | htm
          · rw [heq]; exact hmw
          · rcases List.mem_cons.mp htm with heq | htm
            · rw [heq]; omega
            · exact hbef t (List.mem_cons_of_mem w htm)
        · intro t htm
          rcases List.mem_cons.mp htm with heq | htm
          · rw [heq]; exact hmh
          · rcases List.mem_cons.mp htm with heq | htm
            · rw [heq]; omega
            · exact hmin _ (List.mem_cons_of_mem h htm)

/-- On lists of at most 12 elements, `sort.Slice` is plain insertion sort. -/
theorem sortSliceGo_of_le12 [Inhabited α] (lt : α → α → Bool) (l : List α)
    (h : l.length ≤ 12) : sortSliceGo lt l = insertionSortGo lt l := by
  unfold sortSliceGo
  rw [if_pos h]

/-- The past comparator is the comparator induced by the negated end
instant. -/
theorem pastLess_eq_keyLt :
    pastLess = keyLt (fun t : Trip => -(t.endDate.getD 0)) := by
  funext a b
  simp only [pastLess, keyLt, decide_eq_decide]
  omega

/-- Unfolding of `selectTrip` through the classifier's components. -/
theorem selectTrip_eq (trips : List Trip) (now : Int) :
    selectTrip trips now =
      match (classifyLoop now trips).1 with
      | some t => some t
      | none =>
        match sortSliceGo futureLess (classifyLoop now trips).2.1 with
        | f :: _ => some f
        | [] =>
          match sortSliceGo pastLess (classifyLoop now trips).2.2 with
          | p :: _ => some p
          | [] => none := by
  rcases hcl : classifyLoop now trips with ⟨c, f, p⟩
  simp only [selectTrip, hcl]

/-! ## Claim C1 -/

/-- C1: for every trip list and reference instant `now`, if the list contains
a record whose `start_instant` is at most `now` and whose `end_instant` is
absent or at least `now`, then `selectTrip` returns the first such record in
input order, ignoring all records positioned after it (the list is written as
`pre ++ t :: post` with no ongoing record in `pre`, `t` ongoing and `post`
arbitrary). -/
theorem selectTrip_returns_first_ongoing (now : Int) (pre post : List Trip) (t : Trip)
    (hpre : ∀ u ∈ pre, isOngoing now u = false)
    (ht : isOngoing now t = true) :
    selectTrip (pre ++ t :: post) now = some t := by
  rw [selectTrip_eq, classifyLoop_fst_append now t post ht pre hpre]

/-- Witness for C1: an ongoing trip preceded by a future one and followed by
another ongoing one is selected. -/
theorem selectTrip_returns_first_ongoing_witness :
    selectTrip [⟨1, "", 5, none⟩, ⟨2, "", -1, none⟩, ⟨3, "", -2, none⟩] 0 =
      some ⟨2, "", -1, none⟩ :=
  selectTrip_returns_first_ongoing 0 [⟨1, "", 5, none⟩] [⟨3, "", -2, none⟩]
    ⟨2, "", -1, none⟩ (by decide) (by decide)

/-! ## Claim C2 -/

/-- C2, counterexample: with 13 future trips (no ongoing record, all start
instants at least 1 with `now = 0`), where the head of the list is a future
trip of globally minimal `start_instant`, the claim demands that this first
record be returned; `selectTrip` — through Go's unstable `sort.Slice` —
returns the *other* trip of minimal start instant instead. -/
theorem selectTrip_future_tiebreak_cex :
    (∀ t ∈ c2trips, isOngoing 0 t = false) ∧
    c2trips.head? = some ⟨1, "", 1, none⟩ ∧
    isFuture 0 (⟨1, "", 1, none⟩ : Trip) = true ∧
    (∀ t ∈ c2trips, (1 : Int) ≤ t.startDate) ∧
    selectTrip c2trips 0 ≠ some ⟨1, "", 1, none⟩ ∧
    selectTrip c2trips 0 = some ⟨2, "", 1, none⟩ := by decide

/-- C2 amended: for every trip list with no ongoing record and at least one
future record, *where the future bucket holds at most 12 records* (so that
`sort.Slice` runs its stable insertion sort), `selectTrip` returns the future
record with the globally minimal `start_instant`, and among several future
records of equal minimal `start_instant` the one appearing first in input
order wins (every record before the returned one in the bucket has a strictly
larger `start_instant`).  For more than 12 future records the sort is Go's
unstable quicksort and the input-order tie-break fails (see the
counterexample). -/
theorem selectTrip_future_minimal (trips : List Trip) (now : Int)
    (hno : ∀ t ∈ trips, isOngoing now t = false)
    (hex : trips.filter (isFuture now) ≠ [])
    (hlen : (trips.filter (isFuture now)).length ≤ 12) :
    ∃ r l₁ l₂,
      selectTrip trips now = some r ∧
      trips.filter (isFuture now) = l₁ ++ r :: l₂ ∧
      (∀ u ∈ l₁, r.startDate < u.startDate) ∧
      ∀ u ∈ trips.filter (isFuture now), r.startDate ≤ u.startDate := by
  rcases hf : trips.filter (isFuture now) with _ | ⟨x, xs⟩
  · exact absurd hf hex
  · have hcl := classifyLoop_of_no_ongoing now trips hno
    rw [hf] at hcl
    rw [hf] at hlen
    have hsort : sortSliceGo futureLess (x :: xs) = insertionSortGo futureLess (x :: xs) :=
      sortSliceGo_of_le12 _ _ hlen
    have hhead := insertionSortGo_head futureLess x xs
    obtain ⟨l₁, l₂, hdec, hbef, hmin⟩ := runMin_keyLt_spec Trip.startDate xs x
    have hfeq : keyLt Trip.startDate = futureLess := rfl
    rw [hfeq] at hdec hbef hmin
    refine ⟨runMin futureLess x xs, l₁, l₂, ?_, ?_, hbef, ?_⟩
    · rw [selectTrip_eq, hcl]
      simp only []
      rcases hs : insertionSortGo futureLess (x :: xs) with _ | ⟨r0, rest⟩
      · rw [hs] at hhead; simp at hhead
      · rw [hs] at hhead
        simp only [List.head?_cons, Option.some.injEq] at hhead
        rw [hsort, hs, hhead]
    · exact hdec
    · exact hmin

/-- Witness for the amended C2: two future trips, the later one starting
earlier; it is selected. -/
theorem selectTrip_future_minimal_witness :
    ∃ r l₁ l₂,
      selectTrip [⟨1, "", 10, none⟩, ⟨2, "", 3, none⟩] 0 = some r ∧
      [⟨1, "", 10, none⟩, ⟨2, "", 3, none⟩].filter (isFuture 0) = l₁ ++ r :: l₂ ∧
      (∀ u ∈ l₁, r.startDate < u.startDate) ∧
      ∀ u ∈ [⟨1, "", 10, none⟩, ⟨2, "", 3, none⟩].filter (isFuture 0),
        r.startDate ≤ u.startDate :=
  selectTrip_future_minimal [⟨1, "", 10, none⟩, ⟨2, "", 3, none⟩] 0
    (by decide) (by decide) (by decide)

/-! ## Claim C3 -/

/-- C3, counterexample: with 13 past trips (no ongoing, no future record,
`now = 100`, all end instants at most 90), where the head of the list is a
past trip of globally maximal `end_instant`, the claim demands that this
first record be returned; `selectTrip` — through Go's unstable `sort.Slice` —
returns the *other* trip of maximal end instant instead. -/
theorem selectTrip_past_tiebreak_cex :
    (∀ t ∈ c3trips, isOngoing 100 t = false) ∧
    (∀ t ∈ c3trips, isFuture 100 t = false) ∧
    c3trips.head? = some ⟨1, "", -1000, some 90⟩ ∧
    isPastCand 100 (⟨1, "", -1000, some 90⟩ : Trip) = true ∧
    (∀ t ∈ c3trips, t.endDate.getD 0 ≤ 90) ∧
    selectTrip c3trips 100 ≠ some ⟨1, "", -1000, some 90⟩ ∧
    selectTrip c3trips 100 = some ⟨2, "", -1000, some 90⟩ := by decide

/-- C3 amended: (1) for every trip list with no ongoing and no future record
but at least one past record (present `end_instant < now`), *where the past
bucket holds at most 12 records* (so that `sort.Slice` runs its stable
insertion sort), `selectTrip` returns the past record with the largest
`end_instant`, and among several past records of equal maximal `end_instant`
the one appearing first in input order wins (every record before the returned
one in the bucket has a strictly smaller `end_instant`); for more than 12
past records the input-order tie-break fails (see the counterexample).
(2) When no record falls in any of the three buckets — including the empty
list — `selectTrip` returns `none`. -/
theorem selectTrip_past_maximal_and_empty :
    (∀ (trips : List Trip) (now : Int),
      (∀ t ∈ trips, isOngoing now t = false) →
      (∀ t ∈ trips, isFuture now t = false) →
      trips.filter (isPastCand now) ≠ [] →
      (trips.filter (isPastCand now)).length ≤ 12 →
      ∃ r l₁ l₂,
        selectTrip trips now = some r ∧
        trips.filter (isPastCand now) = l₁ ++ r :: l₂ ∧
        (∀ u ∈ l₁, u.endDate.getD 0 < r.endDate.getD 0) ∧
        ∀ u ∈ trips.filter (isPastCand now), u.endDate.getD 0 ≤ r.endDate.getD 0) ∧
    (∀ (trips : List Trip) (now : Int),
      (∀ t ∈ trips, isOngoing now t = false) →
      (∀ t ∈ trips, isFuture now t = false) →
      (∀ t ∈ trips, isPastCand now t = false) →
      selectTrip trips now = none) := by
  constructor
  · intro trips now hno hnf hex hlen
    have hfut : trips.filter (isFuture now) = [] :=
      List.filter_eq_nil_iff.mpr (fun a ha => by rw [hnf a ha]; simp)
    rcases hp : trips.filter (isPastCand now) with _ | ⟨x, xs⟩
    · exact absurd hp hex
    · have hcl := classifyLoop_of_no_ongoing now trips hno
      rw [hp, hfut] at hcl
      rw [hp] at hlen
      have hsort : sortSliceGo pastLess (x :: xs) = insertionSortGo pastLess (x :: xs) :=
        sortSliceGo_of_le12 _ _ hlen
      have hhead := insertionSortGo_head pastLess x xs
      obtain ⟨l₁, l₂, hdec, hbef, hmin⟩ :=
        runMin_keyLt_spec (fun t : Trip => -(t.endDate.getD 0)) xs x
      rw [← pastLess_eq_keyLt] at hdec hbef hmin
      refine ⟨runMin pastLess x xs, l₁, l₂, ?_, hdec, ?_, ?_⟩
      · rw [selectTrip_eq, hcl]
        simp only []
        rcases hs : insertionSortGo pastLess (x :: xs) with _ | ⟨r0, rest⟩
        · rw [hs] at hhead; simp at hhead
        · rw [hs] at hhead
          simp only [List.head?_cons, Option.some.injEq] at hhead
          rw [hsort, hs, hhead]
          rfl
      · intro u hu
        have := hbef u hu
        simp only [] at this
        omega
      · intro u hu
        have := hmin u hu
        simp only [] at this
        omega
  · intro trips now hno hnf hnp
    have hfut : trips.filter (isFuture now) = [] :=
      List.filter_eq_nil_iff.mpr (fun a ha => by rw [hnf a ha]; simp)
    have hpast : trips.filter (isPastCand now) = [] :=
      List.filter_eq_nil_iff.mpr (fun a ha => by rw [hnp a ha]; simp)
    have hcl := classifyLoop_of_no_ongoing now trips hno
    rw [hfut, hpast] at hcl
    rw [selectTrip_eq, hcl]
    rfl

/-- Witness for the amended C3: two past trips with the later one ending
later; it is selected; and the empty list yields no trip. -/
theorem selectTrip_past_maximal_and_empty_witness :
    (∃ r l₁ l₂,
      selectTrip [⟨1, "", -10, some (-5)⟩, ⟨2, "", -20, some (-3)⟩] 0 = some r ∧
      [⟨1, "", -10, some (-5)⟩, ⟨2, "", -20, some (-3)⟩].filter (isPastCand 0) =
        l₁ ++ r :: l₂ ∧
      (∀ u ∈ l₁, u.endDate.getD 0 < r.endDate.getD 0) ∧
      ∀ u ∈ [⟨1, "", -10, some (-5)⟩, ⟨2, "", -20, some (-3)⟩].filter (isPastCand 0),
        u.endDate.getD 0 ≤ r.endDate.getD 0) ∧
    selectTrip [] 0 = none :=
  ⟨selectTrip_past_maximal_and_empty.1 [⟨1, "", -10, some (-5)⟩, ⟨2, "", -20, some (-3)⟩] 0
      (by decide) (by decide) (by decide) (by decide),
   selectTrip_past_maximal_and_empty.2 [] 0 (by decide) (by decide) (by decide)⟩

/-! ## Claim C10 -/

/-- C10: every record `selectTrip` places in the past bucket has a present
`end_instant`, so the dereference `*past[i].EndDate` in the past-bucket sort
comparator never dereferences a nil pointer. -/
theorem pastBucket_endDate_isSome (now : Int) :
    ∀ (trips : List Trip), ∀ t ∈ (classifyLoop now trips).2.2, t.endDate.isSome = true := by
  intro trips
  induction trips with
  | nil => intro t ht; simp [classifyLoop] at ht
  | cons u us ih =>
    intro t ht
    rcases hcl : classifyLoop now us with ⟨c, f, p⟩
    rw [hcl] at ih
    by_cases hu : isOngoing now u = true
    · simp [classifyLoop, hu] at ht
    · rw [Bool.not_eq_true] at hu
      simp only [classifyLoop, hu, Bool.false_eq_true, if_false, hcl] at ht
      cases hpc : isPastCand now u with
      | true =>
        rw [hpc] at ht
        simp only [if_true] at ht
        rcases List.mem_cons.mp ht with heq | ht2
        · rw [heq]
          cases he : u.endDate with
          | none => simp [isPastCand, he] at hpc
          | some e => simp [he]
        · exact ih t ht2
      | false =>
        rw [hpc] at ht
        simp only [Bool.false_eq_true, if_false] at ht
        exact ih t ht

/-- Witness for C10: a concrete past record lands in the past bucket with a
present end instant. -/
theorem pastBucket_endDate_isSome_witness :
    (⟨1, "", -10, some (-5)⟩ : Trip).endDate.isSome = true :=
  pastBucket_endDate_isSome 0 [⟨1, "", -10, some (-5)⟩] ⟨1, "", -10, some (-5)⟩ (by decide)

/-! ## Claim C4 -/

/-- C4: whenever trip selection succeeds with a record `(id, slug)` on a
cache miss for a configured host, the handler computes the target exactly as
`https://polarsteps.com/<profileID>/<id>-<slug>`, stores that exact string in
the cache under the normalized host key, and returns it as the redirect
target. -/
theorem handler_success_target_and_cache (domains cache : List (String × String))
    (o : FetchOutcome) (now : Int) (host0 username : String) (trips : List Trip) (t : Trip)
    (hdom : domains.lookup (normalizeHost host0) = some username)
    (hmiss : cache.lookup (normalizeHost host0) = none)
    (hfetch : fetchUserTripsModel o = .ok trips)
    (hsel : selectTrip trips now = some t) :
    handlerModel domains cache o now host0 =
      (.redirect ("https://polarsteps.com/" ++ username ++ "/" ++ toString t.id ++ "-" ++ t.slug),
       (normalizeHost host0,
        "https://polarsteps.com/" ++ username ++ "/" ++ toString t.id ++ "-" ++ t.slug) :: cache) ∧
    (handlerModel domains cache o now host0).2.lookup (normalizeHost host0) =
      some ("https://polarsteps.com/" ++ username ++ "/" ++ toString t.id ++ "-" ++ t.slug) := by
  have htne : trips ≠ [] := by
    intro h
    rw [h] at hsel
    simp [selectTrip, classifyLoop, sortSliceGo, insertionSortGo] at hsel
  have hlen : ¬ trips.length = 0 := by
    simpa [List.length_eq_zero] using htne
  have hmain : handlerModel domains cache o now host0 =
      (.redirect ("https://polarsteps.com/" ++ username ++ "/" ++ toString t.id ++ "-" ++ t.slug),
       (normalizeHost host0,
        "https://polarsteps.com/" ++ username ++ "/" ++ toString t.id ++ "-" ++ t.slug) :: cache) := by
    simp only [handlerModel, hdom, hmiss, hfetch, hlen, if_false, hsel, tripURL]
  refine ⟨hmain, ?_⟩
  rw [hmain]
  simp [List.lookup]

/-- Witness for C4: the spec's Scenario A — host `trip.example` mapped to
profile `alice`, upstream returning one trip `{id: 5, slug: "peru",
start: -100, end: null}`, redirecting to `.../alice/5-peru` and caching it. -/
theorem handler_success_target_and_cache_witness :
    handlerModel [("trip.example", "alice")] [] (.response 200 scenarioABody) 0 "trip.example" =
      (.redirect ("https://polarsteps.com/" ++ "alice" ++ "/" ++ toString (5 : Int) ++ "-" ++ "peru"),
       (normalizeHost "trip.example",
        "https://polarsteps.com/" ++ "alice" ++ "/" ++ toString (5 : Int) ++ "-" ++ "peru") :: []) ∧
    (handlerModel [("trip.example", "alice")] [] (.response 200 scenarioABody) 0
        "trip.example").2.lookup (normalizeHost "trip.example") =
      some ("https://polarsteps.com/" ++ "alice" ++ "/" ++ toString (5 : Int) ++ "-" ++ "peru") :=
  handler_success_target_and_cache [("trip.example", "alice")] [] (.response 200 scenarioABody)
    0 "trip.example" "alice" [⟨5, "peru", -100, none⟩] ⟨5, "peru", -100, none⟩
    (by decide) (by decide) (by rfl) (by decide)

/-! ## Claim C5 -/

/-- C5: on a cache miss for a configured host, when the resolution ends in an
upstream fetch failure (transport error or a status other than 200, which
covers every non-2xx status), in zero normalized trips, or in "no suitable
trip", the handler returns the fallback target
`https://polarsteps.com/<profileID>` and leaves the cache unchanged. -/
theorem handler_fallback_no_cache (domains cache : List (String × String))
    (o : FetchOutcome) (now : Int) (host0 username : String)
    (hdom : domains.lookup (normalizeHost host0) = some username)
    (hmiss : cache.lookup (normalizeHost host0) = none)
    (hfail : o = .transportError ∨
             (∃ s b, o = .response s b ∧ s ≠ 200) ∨
             fetchUserTripsModel o = .ok [] ∨
             (∃ trips, fetchUserTripsModel o = .ok trips ∧ selectTrip trips now = none)) :
    handlerModel domains cache o now host0 =
      (.redirect ("https://polarsteps.com/" ++ username), cache) := by
  rcases hfail with h | ⟨s, b, rfl, hs⟩ | h | ⟨trips, hok, hnone⟩
  · subst h
    simp only [handlerModel, hdom, hmiss, fetchUserTripsModel, profileURL]
  · have : fetchUserTripsModel (.response s b) = .error () := by
      simp [fetchUserTripsModel, hs]
    simp only [handlerModel, hdom, hmiss, this, profileURL]
  · simp [handlerModel, hdom, hmiss, h, profileURL]
  · by_cases hl : trips.length = 0
    · simp [handlerModel, hdom, hmiss, hok, hl, profileURL]
    · simp [handlerModel, hdom, hmiss, hok, hl, hnone, profileURL]

/-- Witness for C5: the spec's Scenario D — a non-2xx upstream status yields
the fallback redirect and no cache write. -/
theorem handler_fallback_no_cache_witness :
    handlerModel [("trip.example", "alice")] [] (.response 404 .null) 0 "trip.example" =
      (.redirect ("https://polarsteps.com/" ++ "alice"), []) :=
  handler_fallback_no_cache [("trip.example", "alice")] [] (.response 404 .null) 0
    "trip.example" "alice" (by decide) (by decide)
    (Or.inr (Or.inl ⟨404, .null, rfl, by decide⟩))

/-! ## Claim C8 -/

/-- C8, counterexample: the cache key is *not* lower-cased.  With both
spellings configured, a request for host `Example.com` (which succeeds and
caches) stores the target under the key `Example.com`; a lookup under
`example.com` — the key the claim prescribes — finds nothing. -/
theorem cache_key_not_lowercased_cex :
    (handlerModel [("Example.com", "alice"), ("example.com", "alice")] []
        (.response 200 scenarioABody) 0 "Example.com").2.lookup "example.com" = none ∧
    (handlerModel [("Example.com", "alice"), ("example.com", "alice")] []
        (.response 200 scenarioABody) 0 "Example.com").2.lookup "Example.com" =
      some "https://polarsteps.com/alice/5-peru" := by decide

/-- C8 amended: the key used for both cache lookup and cache storage is the
inbound host with one leading `www.` stripped (a case-sensitive literal
match, applied only when the host is longer than 4 bytes); no case folding is
performed, so `www.example.com` and `example.com` use the same cache key,
while hosts differing only in letter case use different keys.  Formally:
(1) stripping: normalizing `www. ++ s` yields `s` for non-empty `s`;
(2) no folding: the normalized host is the host itself or the host minus its
leading `www.` — characters are never rewritten;
(3) the handler treats `www. ++ s` exactly like `s` whenever `s` is non-empty
and itself carries no `www.` prefix (same cache key, hence same behaviour on
the same cache). -/
theorem cache_key_www_stripped_no_folding :
    (∀ s : List Char, s ≠ [] → normalizeHostL (wwwChars ++ s) = s) ∧
    (∀ h : List Char, normalizeHostL h = h ∨ h = wwwChars ++ normalizeHostL h) ∧
    (∀ (domains cache : List (String × String)) (o : FetchOutcome) (now : Int) (s : String),
      s.data ≠ [] → normalizeHostL s.data = s.data →
      handlerModel domains cache o now (String.mk (wwwChars ++ s.data)) =
        handlerModel domains cache o now s) := by
  have hw4 : wwwChars.length = 4 := rfl
  have strip : ∀ s : List Char, s ≠ [] → normalizeHostL (wwwChars ++ s) = s := by
    intro s hs
    have hslen : s.length ≠ 0 := fun h => hs (List.length_eq_zero.mp h)
    have hlen : (wwwChars ++ s).length > 4 := by
      rw [List.length_append, hw4]; omega
    have htake : (wwwChars ++ s).take 4 = wwwChars := by
      rw [← hw4, List.take_left]
    have hdrop : (wwwChars ++ s).drop 4 = s := by
      rw [← hw4, List.drop_left]
    rw [normalizeHostL, if_pos ⟨hlen, htake⟩, hdrop]
  refine ⟨strip, ?_, ?_⟩
  · intro h
    rw [normalizeHostL]
    split
    · next hcond =>
      right
      rw [← hcond.2]
      exact (List.take_append_drop 4 h).symm
    · left; rfl
  · intro domains cache o now s hs hfix
    have h1 : normalizeHost (String.mk (wwwChars ++ s.data)) = normalizeHost s := by
      show String.mk (normalizeHostL (wwwChars ++ s.data)) = String.mk (normalizeHostL s.data)
      rw [strip s.data hs, hfix]
    simp only [handlerModel, h1]

/-- Witness for the amended C8: `www.example.com` behaves exactly like
`example.com` on a shared setup, and the literal strip and no-folding parts
hold at `www.example.com`. -/
theorem cache_key_www_stripped_no_folding_witness :
    normalizeHostL (wwwChars ++ "example.com".data) = "example.com".data ∧
    (normalizeHostL "Example.com".data = "Example.com".data ∨
      "Example.com".data = wwwChars ++ normalizeHostL "Example.com".data) ∧
    handlerModel [("example.com", "alice")] [] (.response 200 scenarioABody) 0
        (String.mk (wwwChars ++ "example.com".data)) =
      handlerModel [("example.com", "alice")] [] (.response 200 scenarioABody) 0
        "example.com" :=
  ⟨cache_key_www_stripped_no_folding.1 "example.com".data (by decide),
   cache_key_www_stripped_no_folding.2.1 "Example.com".data,
   cache_key_www_stripped_no_folding.2.2 [("example.com", "alice")] []
     (.response 200 scenarioABody) 0 "example.com" (by decide) (by decide)⟩

/-! ## Claim C6 -/

/-- C6, counterexample: the payload `{"alltrips": "x"}` is a well-formed JSON
object, yet the normalizer raises an error (the typed unmarshal of the
`alltrips` field fails), contradicting the claim that an error is raised only
when the payload is not a well-formed JSON object. -/
theorem normalizeTrips_error_on_object_cex :
    normalizeTrips (Json.obj [("alltrips", Json.str "x")]) = .error () := rfl

/-- C6 amended: the normalizer extracts the trip list from the fields
`alltrips`, `trips`, `data` in that order, accepting the first that holds a
non-empty list; if none does, it probes the raw object one level for the key
`trips` as a last resort, ignoring any unmarshal error there; an absent or
empty trip list yields an empty sequence without error; an error is raised
when the payload is not a well-formed JSON object (or `null`), *and also*
when any of the three known fields is present but fails the typed unmarshal
into a trip list. -/
theorem normalizeTrips_priority_and_errors :
    (∀ fs : List (String × Json),
      (decField fs "alltrips").2 = false → (decField fs "trips").2 = false →
      (decField fs "data").2 = false →
      ((decField fs "alltrips").1 ≠ [] →
        normalizeTrips (.obj fs) = .ok (decField fs "alltrips").1) ∧
      ((decField fs "alltrips").1 = [] → (decField fs "trips").1 ≠ [] →
        normalizeTrips (.obj fs) = .ok (decField fs "trips").1) ∧
      ((decField fs "alltrips").1 = [] → (decField fs "trips").1 = [] →
        (decField fs "data").1 ≠ [] →
        normalizeTrips (.obj fs) = .ok (decField fs "data").1) ∧
      ((decField fs "alltrips").1 = [] → (decField fs "trips").1 = [] →
        (decField fs "data").1 = [] →
        (∀ v, rawLookup fs "trips" = some v →
          normalizeTrips (.obj fs) = .ok (decodeTripList v).1) ∧
        (rawLookup fs "trips" = none → normalizeTrips (.obj fs) = .ok []))) ∧
    (∀ fs : List (String × Json),
      ((decField fs "alltrips").2 || (decField fs "trips").2 || (decField fs "data").2) = true →
      normalizeTrips (.obj fs) = .error ()) ∧
    normalizeTrips .null = .ok [] ∧
    (∀ b, normalizeTrips (.bool b) = .error ()) ∧
    (∀ n, normalizeTrips (.num n) = .error ()) ∧
    (∀ s, normalizeTrips (.str s) = .error ()) ∧
    (∀ es, normalizeTrips (.arr es) = .error ()) := by
  refine ⟨?_, ?_, rfl, fun b => rfl, fun n => rfl, fun s => rfl, fun es => rfl⟩
  · intro fs he1 he2 he3
    have herr : (decodeApi fs).2 = false := by
      simp [decodeApi, he1, he2, he3]
    refine ⟨?_, ?_, ?_, ?_⟩
    · intro h1
      simp only [normalizeTrips, herr, Bool.false_eq_true, if_false]
      rw [if_pos (List.length_pos.mpr h1)]
    · intro h1 h2
      simp only [normalizeTrips, herr, Bool.false_eq_true, if_false]
      rw [if_neg (by simp [h1]), if_pos (List.length_pos.mpr h2)]
    · intro h1 h2 h3
      simp only [normalizeTrips, herr, Bool.false_eq_true, if_false]
      rw [if_neg (by simp [h1]), if_neg (by simp [h2]), if_pos (List.length_pos.mpr h3)]
    · intro h1 h2 h3
      constructor
      · intro v hv
        simp only [normalizeTrips, herr, Bool.false_eq_true, if_false]
        rw [if_neg (by simp [h1]), if_neg (by simp [h2]), if_neg (by simp [h3]), hv]
      · intro hv
        simp only [normalizeTrips, herr, Bool.false_eq_true, if_false]
        rw [if_neg (by simp [h1]), if_neg (by simp [h2]), if_neg (by simp [h3]), hv]
  · intro fs herr
    have : (decodeApi fs).2 = true := by simp [decodeApi]; simpa using herr
    simp [normalizeTrips, this]

/-- Witness for the amended C6: a non-empty `alltrips` list is taken; a
`trips: null` field falls through to the raw probe and yields the empty
sequence without error; an object with no recognized field yields the empty
sequence without error; a type mismatch under `alltrips` is an error; a
non-object payload is an error. -/
theorem normalizeTrips_priority_and_errors_witness :
    normalizeTrips (.obj [("alltrips", .arr [goodTripJson])]) =
      .ok [⟨5, "peru", 10, none⟩] ∧
    normalizeTrips (.obj [("trips", .null)]) = .ok [] ∧
    normalizeTrips (.obj [("zzz", .num 1)]) = .ok [] ∧
    normalizeTrips (.obj [("alltrips", .str "x")]) = .error () ∧
    normalizeTrips (.num 7) = .error () :=
  ⟨(normalizeTrips_priority_and_errors.1 [("alltrips", .arr [goodTripJson])]
      rfl rfl rfl).1 (by decide),
   ((normalizeTrips_priority_and_errors.1 [("trips", .null)]
      rfl rfl rfl).2.2.2 rfl rfl rfl).1 .null rfl,
   ((normalizeTrips_priority_and_errors.1 [("zzz", .num 1)]
      rfl rfl rfl).2.2.2 rfl rfl rfl).2 rfl,
   normalizeTrips_priority_and_errors.2.1 [("alltrips", .str "x")] rfl,
   normalizeTrips_priority_and_errors.2.2.2.2.1 7⟩

/-! ## Claim C7 -/

/-- C7, counterexample: a located `alltrips` list mixing a well-formed
element with one that fails coercion makes the whole fetch fail with an
error; the failing element is *not* dropped and the well-formed record is
*not* returned. -/
theorem normalizeTrips_no_drop_cex :
    normalizeTrips (.obj [("alltrips", .arr [goodTripJson, .str "bad"])]) = .error () ∧
    (decodeTrip goodTripJson).2 = false ∧
    (decodeTrip (.str "bad")).2 = true ∧
    normalizeTrips (.obj [("alltrips", .arr [goodTripJson, .str "bad"])]) ≠
      .ok [⟨5, "peru", 10, none⟩] := by
  have h1 : normalizeTrips (.obj [("alltrips", .arr [goodTripJson, .str "bad"])]) =
      .error () := rfl
  exact ⟨h1, rfl, rfl, by rw [h1]; intro h; exact Except.noConfusion h⟩

/-- C7 amended: the normalizer does not drop elements that fail to parse:
(1) if the located `alltrips` list contains any element that fails coercion,
the whole fetch fails with an error (rather than returning the remaining
well-formed records); (2) if every element of the located `alltrips` list
coerces and the other typed fields are error-free, all its elements are
returned, in order, none dropped. -/
theorem normalizeTrips_batch_fails_not_drops :
    (∀ (fs : List (String × Json)) (es : List Json),
      findField fs "alltrips" = some (.arr es) →
      (∃ e ∈ es, (decodeTrip e).2 = true) →
      normalizeTrips (.obj fs) = .error ()) ∧
    (∀ (fs : List (String × Json)) (es : List Json),
      findField fs "alltrips" = some (.arr es) →
      (∀ e ∈ es, (decodeTrip e).2 = false) →
      (decField fs "trips").2 = false →
      (decField fs "data").2 = false →
      es ≠ [] →
      normalizeTrips (.obj fs) = .ok (es.map (fun e => (decodeTrip e).1)) ∧
      (es.map (fun e => (decodeTrip e).1)).length = es.length) := by
  constructor
  · intro fs es hfind hex
    have hany : es.any (fun e => (decodeTrip e).2) = true := by
      rcases hex with ⟨e, he, hd⟩
      exact List.any_eq_true.mpr ⟨e, he, hd⟩
    have herr : (decodeApi fs).2 = true := by
      simp [decodeApi, decField, hfind, decodeTripList, hany]
    simp [normalizeTrips, herr]
  · intro fs es hfind hall he2 he3 hne
    have hnoerr : es.any (fun e => (decodeTrip e).2) = false := by
      rw [List.any_eq_false]
      intro e he
      simp [hall e he]
    have he1 : (decField fs "alltrips") = (es.map (fun e => (decodeTrip e).1), false) := by
      simp [decField, hfind, decodeTripList, hnoerr]
    have herr : (decodeApi fs).2 = false := by
      simp [decodeApi, he1, he2, he3]
    have hlen : (es.map (fun e => (decodeTrip e).1)).length > 0 := by
      simp [List.length_pos, hne]
    constructor
    · simp only [normalizeTrips, herr, Bool.false_eq_true, if_false, he1]
      rw [if_pos hlen]
    · simp

/-- Witness for the amended C7: a single failing element errors the batch;
a single well-formed element is returned, with nothing dropped. -/
theorem normalizeTrips_batch_fails_not_drops_witness :
    normalizeTrips (.obj [("alltrips", .arr [.str "bad"])]) = .error () ∧
    (normalizeTrips (.obj [("alltrips", .arr [goodTripJson])]) =
      .ok ([goodTripJson].map (fun e => (decodeTrip e).1)) ∧
     ([goodTripJson].map (fun e => (decodeTrip e).1)).length = [goodTripJson].length) :=
  ⟨normalizeTrips_batch_fails_not_drops.1 [("alltrips", .arr [.str "bad"])] [.str "bad"]
      rfl ⟨.str "bad", List.mem_singleton.mpr rfl, rfl⟩,
   normalizeTrips_batch_fails_not_drops.2 [("alltrips", .arr [goodTripJson])] [goodTripJson]
      rfl (fun e he => (List.mem_singleton.mp he) ▸ rfl) rfl rfl (List.cons_ne_nil _ _)⟩

/-! ## Claim C9 -/

/-- C9, counterexample: in a location whose UTC offset changes from +3600 to
+7200 at UTC instant 827600 (a daylight-saving transition during the first
sleep), the code's second reset is 86400 seconds after the *recomputed* local
midnight boundary (instant 943200), while the claimed compute-once-then-sleep
-a-fixed-24-hours schedule would reset at 946800; the code does not re-arm by
a fixed 24-hour sleep. -/
theorem cacheResetter_not_fixed_24h_cex :
    codeResets (dstLoc 3600 7200 827600) 777600 2 = [860400, 943200] ∧
    claimResets (dstLoc 3600 7200 827600) 777600 2 = [860400, 946800] ∧
    codeResets (dstLoc 3600 7200 827600) 777600 2 ≠
      claimResets (dstLoc 3600 7200 827600) 777600 2 := by decide

/-- The first boundary computed by the resetter in a constant-offset
location. -/
theorem nextMidnightInstant_const (off u : Int) :
    nextMidnightInstant (constLoc off) u = dayStart (u + off) - off + daySecs := rfl

/-- After a reset at a local-midnight-aligned instant `r`, the recomputed
boundary (from `r + 60`) is exactly `r` plus 24 hours, in a constant-offset
location. -/
theorem nextMidnightInstant_const_step (off r : Int)
    (hr : (r + off) % daySecs = 0) :
    nextMidnightInstant (constLoc off) (r + 60) = r + daySecs := by
  have h := nextMidnightInstant_const off (r + 60)
  rw [h]
  simp only [dayStart, daySecs] at *
  omega

/-- The boundary the resetter computes is local-midnight aligned. -/
theorem nextMidnightInstant_const_aligned (off u : Int) :
    (nextMidnightInstant (constLoc off) u + off) % daySecs = 0 := by
  rw [nextMidnightInstant_const]
  simp only [dayStart, daySecs]
  omega

/-- The schedule of the code's resets, from one cycle on, in a
constant-offset location. -/
theorem codeResets_const_shift (off : Int) :
    ∀ (k : Nat) (r : Int), (r + off) % daySecs = 0 →
      codeResets (constLoc off) (r + 60) k = arithSeq (r + daySecs) daySecs k := by
  intro k
  induction k with
  | zero => intro r _; rfl
  | succ k ih =>
    intro r hr
    have hstep := nextMidnightInstant_const_step off r hr
    have halign : (r + daySecs + off) % daySecs = 0 := by
      simp only [daySecs] at *
      omega
    simp only [codeResets, hstep, arithSeq]
    rw [ih (r + daySecs) halign]

/-- The claimed schedule is the same arithmetic progression. -/
theorem claimResets_eq_arithSeq (L : Loc) (t0 : Int) :
    ∀ k, claimResets L t0 k = arithSeq (nextMidnightInstant L t0) daySecs k := by
  have hmap : ∀ (M : Int) (k : Nat),
      (List.range k).map (fun i : Nat => M + daySecs * (i : Int)) = arithSeq M daySecs k := by
    intro M k
    induction k generalizing M with
    | zero => rfl
    | succ k ih =>
      rw [List.range_succ_eq_map, List.map_cons, List.map_map]
      have hfun : ((fun i : Nat => M + daySecs * (i : Int)) ∘ Nat.succ) =
          (fun i : Nat => (M + daySecs) + daySecs * (i : Int)) := by
        funext i
        simp only [Function.comp, Nat.succ_eq_add_one]
        push_cast
        ring
      rw [hfun, ih (M + daySecs)]
      simp only [arithSeq, Nat.cast_zero, mul_zero, add_zero]
  intro k
  exact hmap (nextMidnightInstant L t0) k

/-- C9 amended: the cache-invalidation task recomputes the next boundary on
*every* cycle — each cycle computes today's local midnight plus 24 hours,
sleeps to it, atomically replaces the whole mapping with an empty one, then
sleeps a fixed 60 seconds before recomputing — rather than re-arming with a
fixed 24-hour sleep.  In a location with a constant UTC offset the two
schedules coincide: every reset of the code's schedule is exactly 24 hours
after the previous one, matching the claimed schedule; under an offset
transition they diverge (see the counterexample). -/
theorem cacheResetter_recomputes_each_cycle (off t0 : Int) :
    ∀ k, codeResets (constLoc off) t0 k = claimResets (constLoc off) t0 k := by
  intro k
  rw [claimResets_eq_arithSeq]
  cases k with
  | zero => rfl
  | succ k =>
    simp only [codeResets, arithSeq]
    rw [codeResets_const_shift off k (nextMidnightInstant (constLoc off) t0)
      (nextMidnightInstant_const_aligned off t0)]
